import Mathlib

/-!
Verification development for the DCPU-16 assembler linker
(`src/assembler/linker.rs`, `src/assembler/types.rs`).

The Rust code is shallowly embedded: `u16` values are `Nat` with explicit
`% 2 ^ 16` wherever the Rust code wraps, `HashMap` is an association list
(the source only uses `get` / `get_mut` / `insert` / `contains_key`, so
iteration order never matters), fallible code returns an explicit result
type, and a Rust panic (`unwrap` on `None`, division by zero, out-of-range
slice) is the dedicated `Res.panic` outcome.

The instruction model and `Instruction::encode` live in the repository's
`types` module, which is not among the given source files; those
definitions are modelled from the specification (sections 4.A, 4.B and 6)
and carry a doc comment saying so.
-/

namespace Dcpu

/-- 16-bit wrap-around, the semantics of Rust `u16` arithmetic. -/
def u16 (n : Nat) : Nat := n % 65536

/-- Association-list lookup, standing in for `HashMap::get`. -/
def lookupA {β : Type} : List (String × β) → String → Option β
  | [], _ => none
  | (k', v) :: rest, k => if k' = k then some v else lookupA rest k

/-- Association-list in-place update, standing in for `HashMap::get_mut`
followed by an assignment: the first entry with the given key is replaced,
absent keys are left alone (all call sites check presence first). -/
def updateA {β : Type} : List (String × β) → String → β → List (String × β)
  | [], _, _ => []
  | (k', v') :: rest, k, v => if k' = k then (k', v) :: rest else (k', v') :: updateA rest k v

/-- `enum Error` from src/assembler/linker.rs (note: no division-by-zero
variant exists in the source). -/
inductive LinkError
  | UnknownLabel (s : String)
  | UnknownLocalLabel (s : String)
  | DuplicatedLabel (s : String)
  | DuplicatedLocalLabel (s : String)
  | LocalBeforeGlobal (s : String)
  deriving DecidableEq

/-- Outcome of running embedded Rust code: a value, an `Err` that the
source propagates with `try!`, a panic (aborted process), or fuel
exhaustion of the (possibly non-terminating) fixed-point loop. -/
inductive Res (α : Type)
  | ok (v : α)
  | err (e : LinkError)
  | panic
  | diverge
  deriving DecidableEq

/-- Sequencing of embedded Rust computations (`try!` plus panic
propagation). -/
def Res.bind {α β : Type} : Res α → (α → Res β) → Res β
  | .ok v, f => f v
  | .err e, _ => .err e
  | .panic, _ => .panic
  | .diverge, _ => .diverge

/-- Modelled from the spec: the eight general registers of section 3
(the `Register` enum of the `types` module is not among the given source
files). Codes 0x00-0x07 per section 6. -/
inductive Register
  | A | B | C | X | Y | Z | I | J
  deriving DecidableEq

/-- Modelled from the spec: 6-bit register codes 0x00-0x07 (section 6). -/
def Register.code : Register → Nat
  | .A => 0 | .B => 1 | .C => 2 | .X => 3 | .Y => 4 | .Z => 5 | .I => 6 | .J => 7

/-- Modelled from the spec: the closed set of basic opcodes of section
4.A, with the DCPU-16 1.7 codes the spec references. -/
inductive BasicOp
  | SET | ADD | SUB | MUL | MLI | DIV | DVI | MOD | MDI
  | AND | BOR | XOR | SHR | ASR | SHL
  | IFB | IFC | IFE | IFN | IFG | IFA | IFL | IFU
  | ADX | SBX | STI | STD
  deriving DecidableEq

/-- Modelled from the spec: 5-bit numeric codes of the basic opcodes
(section 4.A, DCPU-16 1.7). -/
def BasicOp.code : BasicOp → Nat
  | .SET => 0x01 | .ADD => 0x02 | .SUB => 0x03 | .MUL => 0x04 | .MLI => 0x05
  | .DIV => 0x06 | .DVI => 0x07 | .MOD => 0x08 | .MDI => 0x09 | .AND => 0x0a
  | .BOR => 0x0b | .XOR => 0x0c | .SHR => 0x0d | .ASR => 0x0e | .SHL => 0x0f
  | .IFB => 0x10 | .IFC => 0x11 | .IFE => 0x12 | .IFN => 0x13 | .IFG => 0x14
  | .IFA => 0x15 | .IFL => 0x16 | .IFU => 0x17 | .ADX => 0x1a | .SBX => 0x1b
  | .STI => 0x1e | .STD => 0x1f

/-- Modelled from the spec: the closed set of special opcodes of section
4.A, with the DCPU-16 1.7 codes the spec references. -/
inductive SpecialOp
  | JSR | INT | IAG | IAS | RFI | IAQ | HWN | HWQ | HWI
  deriving DecidableEq

/-- Modelled from the spec: 5-bit numeric codes of the special opcodes
(section 4.A, DCPU-16 1.7). -/
def SpecialOp.code : SpecialOp → Nat
  | .JSR => 0x01 | .INT => 0x08 | .IAG => 0x09 | .IAS => 0x0a | .RFI => 0x0b
  | .IAQ => 0x0c | .HWN => 0x10 | .HWQ => 0x11 | .HWI => 0x12

/-- Modelled from the spec: the post-resolution operand value of section 3
(the `Value` enum of the `types` module is not among the given source
files); it holds a concrete 16-bit number where the parsed form held an
expression. -/
inductive Value
  | Reg (r : Register)
  | AtReg (r : Register)
  | AtRegPlus (r : Register) (n : Nat)
  | Push
  | Peek
  | Pick (n : Nat)
  | SP
  | PC
  | EX
  | AtAddr (n : Nat)
  | Litteral (n : Nat)
  deriving DecidableEq

/-- Modelled from the spec: whether a literal may be inlined in operand
position `a` (section 6: inline codes 0x20-0x3f cover the values -1..=30,
i.e. 0xffff and 0..30 as 16-bit words). -/
def Value.inlineable (n : Nat) : Prop := n ≤ 30 ∨ n = 65535

instance (n : Nat) : Decidable (Value.inlineable n) := by
  unfold Value.inlineable; infer_instance

/-- Modelled from the spec: the 6-bit operand field of section 6.
`isA` says the operand sits in position `a`, the only position where the
inline-literal short form is legal; the encoder must prefer it there. -/
def Value.field (isA : Bool) : Value → Nat
  | .Reg r => r.code
  | .AtReg r => 0x08 + r.code
  | .AtRegPlus r _ => 0x10 + r.code
  | .Push => 0x18
  | .Peek => 0x19
  | .Pick _ => 0x1a
  | .SP => 0x1b
  | .PC => 0x1c
  | .EX => 0x1d
  | .AtAddr _ => 0x1e
  | .Litteral n =>
    if isA ∧ Value.inlineable n then (if n = 65535 then 0x20 else 0x21 + n) else 0x1f

/-- Modelled from the spec: the extra words an operand contributes
(section 4.B width table: 0 or 1 words each). -/
def Value.extra (isA : Bool) : Value → List Nat
  | .AtRegPlus _ n => [n]
  | .Pick n => [n]
  | .AtAddr n => [n]
  | .Litteral n => if isA ∧ Value.inlineable n then [] else [n]
  | _ => []

/-- Modelled from the spec: instructions, section 3 (the `Instruction`
enum of the `types` module is not among the given source files). -/
inductive Instruction
  | BasicOp (op : BasicOp) (b : Value) (a : Value)
  | SpecialOp (op : SpecialOp) (a : Value)
  deriving DecidableEq

/-- Modelled from the spec: `Instruction::encode` (not among the given
source files).  Section 6: the instruction word is `aaaaaabbbbbooooo`;
special ops put their code in the `b` field with `o = 0`.  Section 4.B:
the instruction word comes first, then operand `a`'s extra word, then
operand `b`'s; 1-3 words total are written and the count is returned (the
count here is the length of the returned word list). -/
def Instruction.encode : Instruction → List Nat
  | .BasicOp op b a =>
    (a.field true * 1024 + b.field false * 32 + op.code) :: (a.extra true ++ b.extra false)
  | .SpecialOp op a =>
    (a.field true * 1024 + op.code * 32) :: a.extra true

/-- `enum Num` from src/assembler/types.rs: an unsigned or signed numeric
literal.  The Rust fields are `u16` / `i16`; the embedding stores
unbounded `Nat` / `Int` and truncates in `toU16`, which is exactly the
value every consumer of a `Num` extracts via `From<Num> for u16`. -/
inductive Num
  | U (n : Nat)
  | I (i : Int)
  deriving DecidableEq

/-- `From<Num> for u16`: `U(u) => u`, `I(i) => i as u16` (two's
complement). -/
def Num.toU16 : Num → Nat
  | .U n => u16 n
  | .I i => (i.emod 65536).toNat

/-- `enum DatItem` from src/assembler/types.rs.  A Rust `String` is
embedded as its list of UTF-8 byte values, which is what `s.bytes()`
iterates over. -/
inductive DatItem
  | S (s : List Nat)
  | N (n : Nat)
  deriving DecidableEq

/-- The words one `DatItem` contributes: every byte of a string as one
word followed by a zero terminator, or the number itself. -/
def DatItem.words : DatItem → List Nat
  | .S s => s ++ [0]
  | .N n => [n]

/-- The words a whole `dat` item list contributes, in item order. -/
def datWords : List DatItem → List Nat
  | [] => []
  | x :: xs => x.words ++ datWords xs

/-- `enum Directive` from src/assembler/types.rs. -/
inductive Directive
  | Dat (v : List DatItem)
  | Org (n : Nat)
  | Global
  | Text
  | BSS
  deriving DecidableEq

/-- The loop body of `Directive::append_to` for `Dat`: walk the items,
extend the buffer with each item's words and accumulate the `usize` count
`i`; at the end the count is returned `as u16`, i.e. truncated. -/
def datAppend : List DatItem → List Nat → Nat → List Nat × Nat
  | [], bin, i => (bin, u16 i)
  | .S s :: xs, bin, i => datAppend xs (bin ++ (s ++ [0])) (i + (s.length + 1))
  | .N n :: xs, bin, i => datAppend xs (bin ++ [n]) (i + 1)

/-- `Directive::append_to` from src/assembler/types.rs: append the
directive's words to the buffer and return the emitted word count
(`Dat`: the items' words, count truncated `as u16`; `Org n`: `resize`
appends `n` zeros, count `n`; `Global`/`Text`/`BSS`: nothing, count 0). -/
def Directive.append_to : Directive → List Nat → List Nat × Nat
  | .Dat v, bin => datAppend v bin 0
  | .Org n, bin => (bin ++ List.replicate n 0, n)
  | .Global, bin => (bin, 0)
  | .Text, bin => (bin, 0)
  | .BSS, bin => (bin, 0)

/-- The words a directive appends, for stating the append/count laws. -/
def Directive.dwords : Directive → List Nat
  | .Dat v => datWords v
  | .Org n => List.replicate n 0
  | .Global => []
  | .Text => []
  | .BSS => []

/-- The count `append_to` returns, as a function of the directive. -/
def Directive.dcount : Directive → Nat
  | .Dat v => u16 (datWords v).length
  | .Org n => n
  | .Global => 0
  | .Text => 0
  | .BSS => 0

/-- The `u16`-typing invariant Rust enforces on a directive's fields:
`Org`'s field is a `u16`, string bytes are `u8`, `Dat` numbers are
`u16`. -/
def Directive.wf : Directive → Prop
  | .Org n => n < 65536
  | .Dat v => ∀ x ∈ v, (∀ s, x = .S s → ∀ b ∈ s, b < 256) ∧ (∀ n, x = .N n → n < 65536)
  | _ => True

/-- `enum Expression` from src/assembler/types.rs. -/
inductive Expression
  | Label (s : String)
  | LocalLabel (s : String)
  | Num (n : Num)
  | Add (l r : Expression)
  | Sub (l r : Expression)
  | Mul (l r : Expression)
  | Div (l r : Expression)
  | Shr (l r : Expression)
  | Shl (l r : Expression)
  | Mod (l r : Expression)
  deriving DecidableEq

/-- The global symbol table: label name to 16-bit address. -/
abbrev Globals := List (String × Nat)

/-- One local scope: local-label name to 16-bit address. -/
abbrev Scope := List (String × Nat)

/-- The local symbol tables: global-label name to its local scope. -/
abbrev Locals := List (String × Scope)

/-- `Expression::solve` from src/assembler/types.rs.  Label lookups hit
`globals` / `locals` and fail with the source's errors when missing;
`Add`/`Sub`/`Mul` use the wrapping `u16` primitives; `Div`/`Mod` use
`wrapping_div` / `%`, which PANIC on a zero divisor (there is no
division-by-zero error in the source); `Shr`/`Shl` use the host `>>` /
`<<`, whose release-mode Rust semantics masks the shift amount to
`% 16` (a debug build would abort on amounts of 16 or more). -/
def Expression.solve : Expression → Globals → Scope → Res Nat
  | .Label s, globals, _ =>
    match lookupA globals s with
    | some addr => .ok addr
    | none => .err (.UnknownLabel s)
  | .LocalLabel s, _, locals =>
    match lookupA locals s with
    | some addr => .ok addr
    | none => .err (.UnknownLocalLabel s)
  | .Num n, _, _ => .ok n.toU16
  | .Add l r, globals, locals =>
    (l.solve globals locals).bind fun a =>
      (r.solve globals locals).bind fun b => .ok (u16 (a + b))
  | .Sub l r, globals, locals =>
    (l.solve globals locals).bind fun a =>
      (r.solve globals locals).bind fun b => .ok (((a : Int) - (b : Int)).emod 65536).toNat
  | .Mul l r, globals, locals =>
    (l.solve globals locals).bind fun a =>
      (r.solve globals locals).bind fun b => .ok (u16 (a * b))
  | .Div l r, globals, locals =>
    (l.solve globals locals).bind fun a =>
      (r.solve globals locals).bind fun b => if b = 0 then .panic else .ok (a / b)
  | .Shr l r, globals, locals =>
    (l.solve globals locals).bind fun a =>
      (r.solve globals locals).bind fun b => .ok (a >>> (b % 16))
  | .Shl l r, globals, locals =>
    (l.solve globals locals).bind fun a =>
      (r.solve globals locals).bind fun b => .ok (u16 (a <<< (b % 16)))
  | .Mod l r, globals, locals =>
    (l.solve globals locals).bind fun a =>
      (r.solve globals locals).bind fun b => if b = 0 then .panic else .ok (a % b)

/-- `enum ParsedValue` from src/assembler/types.rs. -/
inductive ParsedValue
  | Reg (r : Register)
  | AtReg (r : Register)
  | AtRegPlus (r : Register) (e : Expression)
  | Push
  | Peek
  | Pick (e : Expression)
  | SP
  | PC
  | EX
  | AtAddr (e : Expression)
  | Litteral (e : Expression)
  deriving DecidableEq

/-- `ParsedValue::solve` from src/assembler/types.rs. -/
def ParsedValue.solve : ParsedValue → Globals → Scope → Res Value
  | .Reg r, _, _ => .ok (.Reg r)
  | .AtReg r, _, _ => .ok (.AtReg r)
  | .AtRegPlus r e, globals, locals =>
    (e.solve globals locals).bind fun n => .ok (.AtRegPlus r n)
  | .Push, _, _ => .ok .Push
  | .Peek, _, _ => .ok .Peek
  | .Pick e, globals, locals => (e.solve globals locals).bind fun n => .ok (.Pick n)
  | .SP, _, _ => .ok .SP
  | .PC, _, _ => .ok .PC
  | .EX, _, _ => .ok .EX
  | .AtAddr e, globals, locals => (e.solve globals locals).bind fun n => .ok (.AtAddr n)
  | .Litteral e, globals, locals => (e.solve globals locals).bind fun n => .ok (.Litteral n)

/-- `enum ParsedInstruction` from src/assembler/types.rs. -/
inductive ParsedInstruction
  | BasicOp (op : BasicOp) (b : ParsedValue) (a : ParsedValue)
  | SpecialOp (op : SpecialOp) (a : ParsedValue)
  deriving DecidableEq

/-- `ParsedInstruction::solve` from src/assembler/types.rs (operand `b`
is solved before operand `a`, as in the source). -/
def ParsedInstruction.solve : ParsedInstruction → Globals → Scope → Res Instruction
  | .BasicOp op b a, globals, locals =>
    (b.solve globals locals).bind fun vb =>
      (a.solve globals locals).bind fun va => .ok (.BasicOp op vb va)
  | .SpecialOp op a, globals, locals =>
    (a.solve globals locals).bind fun va => .ok (.SpecialOp op va)

/-- `enum ParsedItem` from src/assembler/types.rs. -/
inductive ParsedItem
  | Directive (d : Directive)
  | LabelDecl (s : String)
  | LocalLabelDecl (s : String)
  | ParsedInstruction (i : ParsedInstruction)
  | Comment (s : String)
  deriving DecidableEq

/-- Item is a global-label declaration. -/
def ParsedItem.isLabel : ParsedItem → Bool
  | .LabelDecl _ => true
  | _ => false

/-- Item is a local-label declaration. -/
def ParsedItem.isLocal : ParsedItem → Bool
  | .LocalLabelDecl _ => true
  | _ => false

/-- Item is a parsed instruction. -/
def ParsedItem.isInstr : ParsedItem → Bool
  | .ParsedInstruction _ => true
  | _ => false

/-- Item is layout-passive for the symbol tables and the last-global
cursor: a directive or a comment. -/
def ParsedItem.isNeutral : ParsedItem → Bool
  | .Directive _ => true
  | .Comment _ => true
  | _ => false

/-- The state threaded by `extract_labels`: `prev_label`, `globals`,
`locals` of src/assembler/linker.rs lines 65-67. -/
structure ExtractState where
  prevLabel : Option String
  globals : Globals
  locals : Locals
  deriving DecidableEq

/-- One item of the `extract_labels` pre-pass, src/assembler/linker.rs
lines 69-93.  The source assigns `prev_label` before the duplicate check,
but on the error path the function returns, so only the success path's
`prev_label = Some(s)` is observable.  `locals.get_mut(prev).unwrap()` is
a panic when `prev` has no entry (unreachable from the public entry
point, which starts with `prev = None` and inserts an empty scope with
every global). -/
def stepExtract (st : ExtractState) : ParsedItem → Res ExtractState
  | .LabelDecl s =>
    if (lookupA st.globals s).isSome then .err (.DuplicatedLabel s)
    else .ok ⟨some s, st.globals ++ [(s, 0)], st.locals ++ [(s, [])]⟩
  | .LocalLabelDecl s =>
    match st.prevLabel with
    | none => .err (.LocalBeforeGlobal s)
    | some p =>
      match lookupA st.locals p with
      | none => .panic
      | some m =>
        if (lookupA m s).isSome then .err (.DuplicatedLocalLabel s)
        else .ok ⟨st.prevLabel, st.globals, updateA st.locals p (m ++ [(s, 0)])⟩
  | _ => .ok st

/-- The fold of the `extract_labels` pre-pass over the item stream. -/
def extractAux : List ParsedItem → ExtractState → Res ExtractState
  | [], st => .ok st
  | item :: rest, st => (stepExtract st item).bind (extractAux rest)

/-- `extract_labels` from src/assembler/linker.rs: the pre-pass that
populates both symbol tables with every declared name at address 0. -/
def extract_labels (ast : List ParsedItem) : Res (Globals × Locals) :=
  (extractAux ast ⟨none, [], []⟩).bind fun st => .ok (st.globals, st.locals)

/-- The linker state threaded through `link`'s `while` loop: the output
buffer, the emission index, both symbol tables, the `last_global` cursor
and the `changed` flag. -/
structure PassState where
  bin : List Nat
  index : Nat
  globals : Globals
  locals : Locals
  lastGlobal : Option String
  changed : Bool
  deriving DecidableEq

/-- The local scope an instruction is solved against, from
src/assembler/linker.rs lines 46-49: `locals.get(last_global).unwrap()`
when a global has been seen (panicking when the cursor names an absent
scope), and a fresh empty map otherwise. -/
def scopeOf : Option String → Locals → Res Scope
  | none, _ => .ok []
  | some s, locals =>
    match lookupA locals s with
    | some sc => .ok sc
    | none => .panic

/-- The buffer manipulation around one instruction in
src/assembler/linker.rs lines 50-52: extend with three `0xbeaf` filler
words, write the encoded words at the emission index (over whatever an
earlier pass left there), then truncate to the new index. -/
def writeBack (bin : List Nat) (index : Nat) (ws : List Nat) : List Nat :=
  let bin1 := bin ++ [0xbeaf, 0xbeaf, 0xbeaf]
  (bin1.take index ++ ws ++ bin1.drop (index + ws.length)).take (u16 (index + ws.length))

/-- One item of the emission pass, src/assembler/linker.rs lines 25-55.
Directives append and advance the index; label declarations compare the
stored address with the index, updating it and raising `changed` when
they differ; instructions are solved against `globals` and the current
scope, encoded at the index, and the buffer is truncated to the new
index.  `get_mut(..).unwrap()` on a missing key and an emission index
beyond the buffer (where the source's slice or its 3-word encode
reservation would be too small) are panics. -/
def stepItem (st : PassState) : ParsedItem → Res PassState
  | .Directive d =>
    let r := d.append_to st.bin
    .ok { st with bin := r.1, index := u16 (st.index + r.2) }
  | .LabelDecl s =>
    match lookupA st.globals s with
    | none => .panic
    | some ptr =>
      if ptr ≠ st.index then
        .ok { st with globals := updateA st.globals s st.index, lastGlobal := some s,
                      changed := true }
      else .ok { st with lastGlobal := some s }
  | .LocalLabelDecl s =>
    match st.lastGlobal with
    | none => .panic
    | some g =>
      match lookupA st.locals g with
      | none => .panic
      | some m =>
        match lookupA m s with
        | none => .panic
        | some ptr =>
          if ptr ≠ st.index then
            .ok { st with locals := updateA st.locals g (updateA m s st.index),
                          changed := true }
          else .ok st
  | .ParsedInstruction ins =>
    (scopeOf st.lastGlobal st.locals).bind fun sc =>
      (ins.solve st.globals sc).bind fun solved =>
        if st.index ≤ st.bin.length then
          .ok { st with bin := writeBack st.bin st.index solved.encode,
                        index := u16 (st.index + solved.encode.length) }
        else .panic
  | .Comment _ => .ok st

/-- One emission pass over the whole item stream (the `for` loop of
src/assembler/linker.rs lines 24-56). -/
def linkPassAux : List ParsedItem → PassState → Res PassState
  | [], st => .ok st
  | item :: rest, st => (stepItem st item).bind (linkPassAux rest)

/-- One iteration of `link`'s `while` loop: the source resets `changed`
to `false` and the emission index to 0 at the top of the loop body, but
neither clears the buffer nor the `last_global` cursor. -/
def linkPass (ast : List ParsedItem) (st : PassState) : Res PassState :=
  linkPassAux ast { st with index := 0, changed := false }

/-- The `while changed` fixed-point loop of src/assembler/linker.rs lines
21-57, with explicit fuel because the source loop has no iteration cap:
`.diverge` stands for running out of fuel, and every claim about a
terminating run quantifies over the fuel that reaches `.ok`. -/
def linkLoop : Nat → List ParsedItem → PassState → Res PassState
  | 0, _, _ => .diverge
  | fuel + 1, ast, st =>
    if st.changed then (linkPass ast st).bind (linkLoop fuel ast) else .ok st

/-- The state `link` sets up before the loop: empty buffer, tables from
the pre-pass, no cursor, `changed = true`. -/
def initState (globals : Globals) (locals : Locals) : PassState :=
  { bin := [], index := 0, globals := globals, locals := locals,
    lastGlobal := none, changed := true }

/-- `link` from src/assembler/linker.rs: run the pre-pass, iterate
emission passes until none changes a label address, and return the
buffer. -/
def link (fuel : Nat) (ast : List ParsedItem) : Res (List Nat) :=
  (extract_labels ast).bind fun tables =>
    (linkLoop fuel ast (initState tables.1 tables.2)).bind fun st => .ok st.bin

/-- Sum of the widths of all directives in a stream (what invariant 3 of
the spec adds up, for streams without instructions). -/
def dirWidths : List ParsedItem → Nat
  | [] => 0
  | .Directive d :: rest => d.dwords.length + dirWidths rest
  | _ :: rest => dirWidths rest

/-! ### Basic lemmas about the embedding -/

theorem Res.bind_eq_ok {α β : Type} {r : Res α} {f : α → Res β} {v : β}
    (h : r.bind f = .ok v) : ∃ a, r = .ok a ∧ f a = .ok v := by
  cases r with
  | ok a => exact ⟨a, rfl, h⟩
  | err e => simp [Res.bind] at h
  | panic => simp [Res.bind] at h
  | diverge => simp [Res.bind] at h

@[simp] theorem Res.ok_bind {α β : Type} (a : α) (f : α → Res β) :
    (Res.ok a).bind f = f a := rfl

@[simp] theorem Res.err_bind {α β : Type} (e : LinkError) (f : α → Res β) :
    (Res.err e).bind f = .err e := rfl

theorem u16_le (n : Nat) : u16 n ≤ n := Nat.mod_le n 65536

theorem lookupA_append {β : Type} (l₁ l₂ : List (String × β)) (k : String) :
    lookupA (l₁ ++ l₂) k =
      match lookupA l₁ k with
      | some v => some v
      | none => lookupA l₂ k := by
  induction l₁ with
  | nil => simp [lookupA]
  | cons p rest ih =>
    obtain ⟨k', v⟩ := p
    by_cases hk : k' = k <;> simp [lookupA, hk, ih]

theorem lookupA_updateA_isSome {β : Type} (l : List (String × β)) (p k : String) (v : β) :
    (lookupA (updateA l p v) k).isSome = (lookupA l k).isSome := by
  induction l with
  | nil => simp [updateA]
  | cons q rest ih =>
    obtain ⟨k', v'⟩ := q
    by_cases hp : k' = p
    · subst hp
      by_cases hk : k' = k
      · subst hk; simp [updateA, lookupA]
      · simp [updateA, lookupA, hk]
    · by_cases hk : k' = k
      · subst hk; simp [updateA, lookupA, hp]
      · simp [updateA, lookupA, hp, hk, ih]

/-- `datAppend` appends exactly the items' words and counts their total,
truncated `as u16`. -/
theorem datAppend_eq (v : List DatItem) (bin : List Nat) (i : Nat) :
    datAppend v bin i = (bin ++ datWords v, u16 (i + (datWords v).length)) := by
  induction v generalizing bin i with
  | nil => simp [datAppend, datWords]
  | cons x xs ih =>
    cases x with
    | S s =>
      rw [datAppend, ih]
      simp only [datWords, DatItem.words, Prod.mk.injEq, List.append_assoc,
        List.length_append, List.length_cons, List.length_nil, u16]
      exact ⟨trivial, by omega⟩
    | N n =>
      rw [datAppend, ih]
      simp only [datWords, DatItem.words, Prod.mk.injEq, List.append_assoc,
        List.length_append, List.length_cons, List.length_nil, u16]
      exact ⟨trivial, by omega⟩

/-- `Directive::append_to` appends exactly the directive's words and
returns its count. -/
theorem Directive.append_to_eq (d : Directive) (bin : List Nat) :
    d.append_to bin = (bin ++ d.dwords, d.dcount) := by
  cases d with
  | Dat v => simpa [append_to, dwords, dcount] using datAppend_eq v bin 0
  | Org n => simp [append_to, dwords, dcount]
  | Global => simp [append_to, dwords, dcount]
  | Text => simp [append_to, dwords, dcount]
  | BSS => simp [append_to, dwords, dcount]

/-- The returned count never exceeds the number of appended words. -/
theorem Directive.dcount_le (d : Directive) : d.dcount ≤ d.dwords.length := by
  cases d with
  | Dat v => exact u16_le _
  | Org n => simp [dcount, dwords]
  | Global => simp [dcount, dwords]
  | Text => simp [dcount, dwords]
  | BSS => simp [dcount, dwords]

/-! ### C4 - division by zero -/

/-- C4: the claim says a division or modulo whose right operand is zero
fails with a defined DivisionByZero assembly error.  The code instead
panics: `Expression::solve` uses `wrapping_div` and `%`, both of which
abort the process on a zero divisor, and the linker's `Error` enum has no
division-by-zero variant at all.  This theorem evaluates the code at the
failing inputs `1 / 0` and `1 % 0`. -/
theorem c4_div_mod_zero_panics :
    (Expression.Div (.Num (.U 1)) (.Num (.U 0))).solve [] [] = .panic ∧
    (Expression.Mod (.Num (.U 1)) (.Num (.U 0))).solve [] [] = .panic := by
  exact ⟨rfl, rfl⟩

/-! ### C5 - shifts by 16 or more -/

/-- C5 counterexample: the claim says every shift whose right operand is
16 or more evaluates to zero.  In the code the host shift masks the
amount (release-mode Rust semantics; a debug build would abort), so
`1 << 16` and `1 >> 16` both evaluate to 1, not 0. -/
theorem c5_counterexample :
    (Expression.Shl (.Num (.U 1)) (.Num (.U 16))).solve [] [] = .ok 1 ∧
    (Expression.Shr (.Num (.U 1)) (.Num (.U 16))).solve [] [] = .ok 1 ∧
    (Res.ok 1 : Res Nat) ≠ .ok 0 := by
  refine ⟨rfl, rfl, by decide⟩

/-- C5 amended: a shift whose operands evaluate successfully shifts by
the right operand taken modulo 16 (so amounts of 16 or more act as the
amount mod 16 rather than producing zero). -/
theorem c5_amended_shift_masked (l r : Expression) (g : Globals) (loc : Scope) (a b : Nat)
    (hl : l.solve g loc = .ok a) (hr : r.solve g loc = .ok b) :
    (Expression.Shr l r).solve g loc = .ok (a >>> (b % 16)) ∧
    (Expression.Shl l r).solve g loc = .ok (u16 (a <<< (b % 16))) := by
  constructor <;> simp [Expression.solve, hl, hr, Res.bind]

/-- C5 amended, witnessed at `2 >> 17 = 1` and `3 << 16 = 3`. -/
theorem c5_amended_shift_masked_witness :
    (Expression.Shr (.Num (.U 2)) (.Num (.U 17))).solve [] [] = .ok (2 >>> (17 % 16)) ∧
    (Expression.Shl (.Num (.U 3)) (.Num (.U 16))).solve [] [] = .ok (u16 (3 <<< (16 % 16))) := by
  exact ⟨(c5_amended_shift_masked (.Num (.U 2)) (.Num (.U 17)) [] [] 2 17 rfl rfl).1,
         (c5_amended_shift_masked (.Num (.U 3)) (.Num (.U 16)) [] [] 3 16 rfl rfl).2⟩

/-! ### C6 - wrapping arithmetic -/

/-- C6: when both subexpressions evaluate successfully, `Add`, `Sub` and
`Mul` evaluate successfully (never trapping on overflow) to a result
congruent modulo 2^16 to the exact integer sum, difference and product of
the subexpression values. -/
theorem c6_arith_wraps (l r : Expression) (g : Globals) (loc : Scope) (a b : Nat)
    (hl : l.solve g loc = .ok a) (hr : r.solve g loc = .ok b) :
    ((Expression.Add l r).solve g loc = .ok (u16 (a + b)) ∧ u16 (a + b) ≡ a + b [MOD 65536]) ∧
    ((Expression.Sub l r).solve g loc = .ok (((a : Int) - (b : Int)).emod 65536).toNat ∧
      (((((a : Int) - (b : Int)).emod 65536).toNat : Int)) ≡ (a : Int) - (b : Int) [ZMOD 65536]) ∧
    ((Expression.Mul l r).solve g loc = .ok (u16 (a * b)) ∧ u16 (a * b) ≡ a * b [MOD 65536]) := by
  refine ⟨⟨?_, ?_⟩, ⟨?_, ?_⟩, ⟨?_, ?_⟩⟩
  · simp [Expression.solve, hl, hr, Res.bind]
  · simp [Nat.ModEq, u16, Nat.mod_mod]
  · simp [Expression.solve, hl, hr, Res.bind]
  · have hnn : (0 : Int) ≤ ((a : Int) - (b : Int)).emod 65536 :=
      Int.emod_nonneg _ (by norm_num)
    rw [Int.toNat_of_nonneg hnn]
    exact Int.emod_emod_of_dvd _ dvd_rfl
  · simp [Expression.solve, hl, hr, Res.bind]
  · simp [Nat.ModEq, u16, Nat.mod_mod]

/-- C6 witnessed at `0xffff + 2`, `0 - 1` and `0x100 * 0x100`. -/
theorem c6_arith_wraps_witness :
    (Expression.Add (.Num (.U 65535)) (.Num (.U 2))).solve [] [] = .ok (u16 (65535 + 2)) ∧
    (Expression.Sub (.Num (.U 0)) (.Num (.U 1))).solve [] []
      = .ok (((0 : Int) - (1 : Int)).emod 65536).toNat ∧
    (Expression.Mul (.Num (.U 256)) (.Num (.U 256))).solve [] [] = .ok (u16 (256 * 256)) := by
  exact ⟨(c6_arith_wraps (.Num (.U 65535)) (.Num (.U 2)) [] [] 65535 2 rfl rfl).1.1,
         (c6_arith_wraps (.Num (.U 0)) (.Num (.U 1)) [] [] 0 1 rfl rfl).2.1.1,
         (c6_arith_wraps (.Num (.U 256)) (.Num (.U 256)) [] [] 256 256 rfl rfl).2.2.1⟩

/-! ### C7 - dat emission -/

/-- C7: a `dat` directive emits, in item order, one word per byte of each
string item followed by one zero terminator word, and exactly one word
per numeric item; in particular `dat "Hi"` (bytes 0x48, 0x69) emits the
words `[0x0048, 0x0069, 0x0000]`. -/
theorem c7_dat_emission (items : List DatItem) (bin : List Nat) :
    (Directive.Dat items).append_to bin
      = (bin ++ datWords items, u16 (datWords items).length) ∧
    (∀ s, DatItem.words (.S s) = s ++ [0]) ∧
    (∀ n, DatItem.words (.N n) = [n]) ∧
    ((Directive.Dat [.S [0x48, 0x69]]).append_to []).1 = [0x48, 0x69, 0x00] := by
  refine ⟨?_, fun s => rfl, fun n => rfl, rfl⟩
  simpa [Directive.append_to] using datAppend_eq items bin 0

/-! ### C10 - append_to is append-only, count vs growth -/

/-- C10 counterexample: the claim says the returned count always equals
the buffer's length growth.  The count is returned `as u16`, so a `dat`
directive with 65536 one-word items appends 65536 words but returns a
count of 0. -/
theorem c10_counterexample :
    ((Directive.Dat (List.replicate 65536 (.N 0))).append_to []).1.length = 65536 ∧
    ((Directive.Dat (List.replicate 65536 (.N 0))).append_to []).2 = 0 := by
  have hw : ∀ n : Nat, datWords (List.replicate n (.N 0)) = List.replicate n 0 := by
    intro n
    induction n with
    | zero => rfl
    | succ k ih => simp [List.replicate_succ, datWords, DatItem.words, ih]
  have h := Directive.append_to_eq (.Dat (List.replicate 65536 (.N 0))) []
  rw [h]
  constructor
  · show ([] ++ datWords (List.replicate 65536 (DatItem.N 0))).length = 65536
    rw [List.nil_append, hw 65536, List.length_replicate]
  · show u16 (datWords (List.replicate 65536 (DatItem.N 0))).length = 0
    rw [hw 65536, List.length_replicate]
    rfl

/-- C10 amended: `Directive::append_to` only appends — the result is the
input buffer followed by the directive's words, so existing words keep
their positions — and the returned count is the length growth truncated
`as u16` (equal to the growth whenever the growth is below 2^16); for
`Global`, `Text` and `BSS` no word is appended and the count is 0.  The
`wf` hypothesis is the `u16` typing Rust imposes on `Org`'s operand. -/
theorem c10_amended_append_only (d : Directive) (bin : List Nat) (hwf : d.wf) :
    d.append_to bin = (bin ++ d.dwords, u16 d.dwords.length) ∧
    ((d = .Global ∨ d = .Text ∨ d = .BSS) → d.dwords = []) := by
  constructor
  · rw [Directive.append_to_eq]
    cases d with
    | Dat v => rfl
    | Org n =>
      simp only [Directive.dwords, Directive.dcount, Prod.mk.injEq, true_and]
      simp only [Directive.wf] at hwf
      simp [u16, Nat.mod_eq_of_lt hwf]
    | Global => rfl
    | Text => rfl
    | BSS => rfl
  · intro h
    rcases h with h | h | h <;> subst h <;> rfl

/-- C10 amended, witnessed at `org 5` on a non-empty buffer. -/
theorem c10_amended_append_only_witness :
    (Directive.Org 5).append_to [9] = ([9] ++ (Directive.Org 5).dwords, u16 (Directive.Org 5).dwords.length) := by
  exact (c10_amended_append_only (.Org 5) [9] (by norm_num [Directive.wf])).1

/-! ### C8 - pre-pass errors -/

theorem extractAux_append (xs ys : List ParsedItem) (st : ExtractState) :
    extractAux (xs ++ ys) st = (extractAux xs st).bind (extractAux ys) := by
  induction xs generalizing st with
  | nil => simp [extractAux]
  | cons it rest ih =>
    simp only [List.cons_append, extractAux]
    cases stepExtract st it with
    | ok st₁ => simp [Res.bind, ih]
    | err e => rfl
    | panic => rfl
    | diverge => rfl

/-- Items that declare no label leave the pre-pass state untouched. -/
theorem extractAux_skips (pre : List ParsedItem) (st : ExtractState)
    (h : ∀ it ∈ pre, it.isLabel = false ∧ it.isLocal = false) :
    extractAux pre st = .ok st := by
  induction pre with
  | nil => rfl
  | cons it rest ih =>
    have hit := h it (by simp)
    have hrest : ∀ x ∈ rest, x.isLabel = false ∧ x.isLocal = false :=
      fun x hx => h x (by simp [hx])
    have hstep : stepExtract st it = .ok st := by
      cases it with
      | Directive d => rfl
      | LabelDecl s => simp [ParsedItem.isLabel] at hit
      | LocalLabelDecl s => simp [ParsedItem.isLocal] at hit
      | ParsedInstruction i => rfl
      | Comment s => rfl
    simp [extractAux, hstep, ih hrest]

/-- C8: the pre-pass fails with `LocalBeforeGlobal` (naming the label)
when a local-label declaration occurs before any label declaration, with
`DuplicatedLabel` when a global label is declared again after an
error-free prefix already declared it, and with `DuplicatedLocalLabel`
when a local label is declared again after an error-free prefix already
declared it within the scope of the current global label. -/
theorem c8_prepass_errors :
    (∀ (pre post : List ParsedItem) (s : String),
      (∀ it ∈ pre, it.isLabel = false ∧ it.isLocal = false) →
      extract_labels (pre ++ .LocalLabelDecl s :: post) = .err (.LocalBeforeGlobal s)) ∧
    (∀ (pre post : List ParsedItem) (s : String) (st : ExtractState),
      extractAux pre ⟨none, [], []⟩ = .ok st → (lookupA st.globals s).isSome →
      extract_labels (pre ++ .LabelDecl s :: post) = .err (.DuplicatedLabel s)) ∧
    (∀ (pre post : List ParsedItem) (s gname : String) (st : ExtractState) (m : Scope),
      extractAux pre ⟨none, [], []⟩ = .ok st → st.prevLabel = some gname →
      lookupA st.locals gname = some m → (lookupA m s).isSome →
      extract_labels (pre ++ .LocalLabelDecl s :: post) = .err (.DuplicatedLocalLabel s)) := by
  refine ⟨?_, ?_, ?_⟩
  · intro pre post s h
    unfold extract_labels
    rw [extractAux_append, extractAux_skips pre _ h]
    rfl
  · intro pre post s st hpre hsome
    unfold extract_labels
    rw [extractAux_append, hpre]
    simp [extractAux, stepExtract, hsome]
  · intro pre post s gname st m hpre hprev hm hsome
    unfold extract_labels
    rw [extractAux_append, hpre]
    simp [extractAux, stepExtract, hprev, hm, hsome]

/-- C8 witnessed at three minimal failing streams. -/
theorem c8_prepass_errors_witness :
    extract_labels [.Directive .Text, .LocalLabelDecl "x"] = .err (.LocalBeforeGlobal "x") ∧
    extract_labels [.LabelDecl "a", .LabelDecl "a"] = .err (.DuplicatedLabel "a") ∧
    extract_labels [.LabelDecl "a", .LocalLabelDecl "x", .LocalLabelDecl "x"]
      = .err (.DuplicatedLocalLabel "x") := by
  refine ⟨c8_prepass_errors.1 [.Directive .Text] [] "x" (by decide),
    c8_prepass_errors.2.1 [.LabelDecl "a"] [] "a" ⟨some "a", [("a", 0)], [("a", [])]⟩
      (by decide) (by decide),
    c8_prepass_errors.2.2 [.LabelDecl "a", .LocalLabelDecl "x"] [] "x" "a"
      ⟨some "a", [("a", 0)], [("a", [("x", 0)])]⟩ [("x", 0)]
      (by decide) rfl (by decide) (by decide)⟩

/-! ### C1 - image length vs sum of widths -/

/-- The failing input for C1 and C2: one word-emitting directive followed
by a global label.  The label's address changes from 0 to 1 during pass
1, so a second pass runs; the buffer is not cleared and no instruction
truncates it. -/
def c1ast : List ParsedItem := [.Directive (.Dat [.N 1]), .LabelDecl "l"]

/-- C1: the claim says that whenever `link` succeeds the image length
equals the sum of the encoded widths of all directives and instructions.
Evaluating the code at `c1ast` (total directive width 1, no
instructions): the label moves from address 0 to 1 in pass 1, pass 2
re-appends the directive's word to the never-cleared buffer, and `link`
returns an image of length 2. -/
theorem c1_image_length_bug :
    link 3 c1ast = .ok [1, 1] ∧
    (∀ it ∈ c1ast, it.isInstr = false) ∧
    dirWidths c1ast = 1 ∧
    ([1, 1] : List Nat).length = 2 := by
  exact ⟨by decide, by decide, by decide, rfl⟩

/-! ### C2 - the buffer is not cleared between passes -/

/-- The state after pass 1 of `link` on `c2ast`. -/
def c2st1 : PassState := ⟨[7], 1, [("m", 1)], [("m", [])], some "m", true⟩

/-- The state after pass 2 of `link` on `c2ast`. -/
def c2st2 : PassState := ⟨[7, 7], 1, [("m", 1)], [("m", [])], some "m", false⟩

/-- The C2 failing input: like `c1ast` with a different word and label. -/
def c2ast : List ParsedItem := [.Directive (.Dat [.N 7]), .LabelDecl "m"]

/-- C2 counterexample: the claim says every pass starts with a cleared
buffer and cleared `last_global`, so no words from an earlier pass
survive.  In the code only the emission index and the `changed` flag are
reset: pass 2 starts from pass 1's full state `c2st1` — buffer `[7]`
still in place, cursor still `some "m"` — and its output buffer `[7, 7]`
(also the final image) still contains pass 1's word at position 0. -/
theorem c2_counterexample :
    extract_labels c2ast = .ok ([("m", 0)], [("m", [])]) ∧
    linkPass c2ast (initState [("m", 0)] [("m", [])]) = .ok c2st1 ∧
    c2st1.bin = [7] ∧ c2st1.lastGlobal = some "m" ∧
    linkPass c2ast c2st1 = .ok c2st2 ∧
    c2st2.bin = [7, 7] ∧
    link 3 c2ast = .ok [7, 7] := by
  exact ⟨by decide, by decide, rfl, rfl, by decide, rfl, by decide⟩

theorem stepItem_bin_extends {t t₁ : PassState} {it : ParsedItem}
    (h : stepItem t it = .ok t₁) (hni : it.isInstr = false) :
    ∃ tail, t₁.bin = t.bin ++ tail := by
  cases it with
  | Directive d =>
    refine ⟨d.dwords, ?_⟩
    simp only [stepItem, Directive.append_to_eq, Res.ok.injEq] at h
    rw [← h]
  | LabelDecl s =>
    refine ⟨[], ?_⟩
    cases hlk : lookupA t.globals s with
    | none => simp only [stepItem, hlk] at h; exact Res.noConfusion h
    | some ptr =>
      simp only [stepItem, hlk] at h
      split at h <;> (simp only [Res.ok.injEq] at h; rw [← h]; simp)
  | LocalLabelDecl s =>
    refine ⟨[], ?_⟩
    cases hlg : t.lastGlobal with
    | none => simp only [stepItem, hlg] at h; exact Res.noConfusion h
    | some g =>
      cases hlk : lookupA t.locals g with
      | none => simp only [stepItem, hlg, hlk] at h; exact Res.noConfusion h
      | some m =>
        cases hlk2 : lookupA m s with
        | none => simp only [stepItem, hlg, hlk, hlk2] at h; exact Res.noConfusion h
        | some ptr =>
          simp only [stepItem, hlg, hlk, hlk2] at h
          split at h <;> (simp only [Res.ok.injEq] at h; rw [← h]; simp)
  | ParsedInstruction i => simp [ParsedItem.isInstr] at hni
  | Comment s =>
    refine ⟨[], ?_⟩
    simp only [stepItem, Res.ok.injEq] at h
    rw [← h]; simp

theorem linkPassAux_bin_extends (ast : List ParsedItem) (t st' : PassState)
    (hni : ∀ it ∈ ast, it.isInstr = false)
    (h : linkPassAux ast t = .ok st') :
    st'.bin.take t.bin.length = t.bin := by
  induction ast generalizing t with
  | nil =>
    simp only [linkPassAux, Res.ok.injEq] at h
    rw [← h]
    exact List.take_length _
  | cons it rest ih =>
    obtain ⟨t₁, hstep, hrest⟩ := Res.bind_eq_ok h
    have hit := hni it (by simp)
    have hni' : ∀ x ∈ rest, x.isInstr = false := fun x hx => hni x (by simp [hx])
    obtain ⟨tail, htail⟩ := stepItem_bin_extends hstep hit
    have hle : t.bin.length ≤ t₁.bin.length := by rw [htail]; simp
    have h2 := ih t₁ hni' hrest
    calc st'.bin.take t.bin.length
        = (st'.bin.take t₁.bin.length).take t.bin.length := by
          rw [List.take_take, min_eq_left hle]
      _ = (t.bin ++ tail).take t.bin.length := by rw [h2, htail]
      _ = t.bin := by simp

/-- C2 amended: at the start of every emission pass only the emission
index (reset to 0) and the `changed` flag are reset; the output buffer
and the `last_global` cursor persist from the previous pass.  For a
stream without instructions (nothing overwrites or truncates), the
incoming buffer survives in place as the initial segment of the pass's
output buffer. -/
theorem c2_amended_buffer_persists (ast : List ParsedItem) (st st' : PassState)
    (hni : ∀ it ∈ ast, it.isInstr = false)
    (h : linkPass ast st = .ok st') :
    st'.bin.take st.bin.length = st.bin := by
  exact linkPassAux_bin_extends ast { st with index := 0, changed := false } st' hni h

/-- C2 amended, witnessed at pass 2 of `c2ast`: the incoming buffer `[7]`
survives as the initial segment. -/
theorem c2_amended_buffer_persists_witness :
    c2st2.bin.take c2st1.bin.length = c2st1.bin := by
  exact c2_amended_buffer_persists c2ast c2st1 c2st2 (by decide) (by decide)

/-! ### C3 - the local scope an instruction is resolved against -/

/-- The C3 input: an instruction before the first global label, then a
global with one local, then a directive (so pass 1 moves both labels and
forces a second pass). -/
def c3ast : List ParsedItem :=
  [.ParsedInstruction (.BasicOp .SET (.Reg .A) (.Litteral (.Num (.U 0)))),
   .LabelDecl "g", .LocalLabelDecl "x", .Directive (.Dat [.N 5])]

/-- The state after pass 1 of `link` on `c3ast` (word 33793 = 0x8401 is
`SET A, 0` with the literal inlined). -/
def c3st1 : PassState := ⟨[33793, 5], 2, [("g", 1)], [("g", [("x", 1)])], some "g", true⟩

/-- C3 counterexample: the claim says an instruction with no earlier
global-label declaration in the stream resolves against an empty local
scope on every pass.  Pass 1 of `c3ast` ends in state `c3st1`, whose
`last_global` cursor still reads `some "g"`; `linkPass` does not reset
it, so pass 2 resolves the leading instruction against
`scopeOf (some "g") = [("x", 1)]`, not against the empty scope — and the
two scopes are observably different to the expression solver. -/
theorem c3_counterexample :
    extract_labels c3ast = .ok ([("g", 0)], [("g", [("x", 0)])]) ∧
    linkPass c3ast (initState [("g", 0)] [("g", [("x", 0)])]) = .ok c3st1 ∧
    c3st1.lastGlobal = some "g" ∧
    scopeOf c3st1.lastGlobal c3st1.locals = .ok [("x", 1)] ∧
    scopeOf none c3st1.locals = .ok [] ∧
    (Expression.LocalLabel "x").solve c3st1.globals [("x", 1)] = .ok 1 ∧
    (Expression.LocalLabel "x").solve c3st1.globals [] = .err (.UnknownLocalLabel "x") := by
  exact ⟨by decide, by decide, rfl, by decide, rfl, by decide, by decide⟩

/-- C3 amended: during every emission pass, an instruction preceded only
by directives and comments is resolved against `globals` and the scope
selected by the incoming `last_global` cursor — which persists from
earlier passes instead of being cleared — and the empty scope is used
only when that cursor is empty.  Stated through error propagation: if the
solve against that scope fails, the pass fails with exactly that error. -/
theorem c3_amended_scope_from_cursor (pre rest : List ParsedItem) (ins : ParsedInstruction)
    (st : PassState) (sc : Scope) (e : LinkError)
    (hpre : ∀ it ∈ pre, it.isNeutral = true)
    (hsc : scopeOf st.lastGlobal st.locals = .ok sc)
    (hsolve : ins.solve st.globals sc = .err e) :
    linkPassAux (pre ++ .ParsedInstruction ins :: rest) st = .err e := by
  induction pre generalizing st with
  | nil =>
    simp only [List.nil_append, linkPassAux, stepItem, hsc, Res.ok_bind, hsolve, Res.err_bind]
  | cons it pre' ih =>
    have hit := hpre it (by simp)
    have hpre' : ∀ x ∈ pre', x.isNeutral = true := fun x hx => hpre x (by simp [hx])
    cases it with
    | Directive d =>
      simp only [List.cons_append, linkPassAux, stepItem, Res.ok_bind]
      exact ih _ hpre' hsc hsolve
    | Comment s =>
      simp only [List.cons_append, linkPassAux, stepItem, Res.ok_bind]
      exact ih _ hpre' hsc hsolve
    | LabelDecl s => simp [ParsedItem.isNeutral] at hit
    | LocalLabelDecl s => simp [ParsedItem.isNeutral] at hit
    | ParsedInstruction i => simp [ParsedItem.isNeutral] at hit

/-- C3 amended, witnessed at a stream whose leading instruction names a
local label while the incoming cursor is empty. -/
theorem c3_amended_scope_from_cursor_witness :
    linkPassAux
      [.Directive .Text, .ParsedInstruction (.SpecialOp .JSR (.Litteral (.LocalLabel "y")))]
      (initState [] []) = .err (.UnknownLocalLabel "y") := by
  exact c3_amended_scope_from_cursor [.Directive .Text] []
    (.SpecialOp .JSR (.Litteral (.LocalLabel "y"))) (initState [] []) []
    (.UnknownLocalLabel "y") (by decide) rfl rfl

/-! ### Toward C9: an expression that solves in the empty scope never
reads the scope, so it solves to the same value in any scope -/

theorem Expression.solve_empty_any_scope {g : Globals} :
    ∀ {e : Expression} {v : Nat}, e.solve g [] = .ok v → ∀ loc : Scope, e.solve g loc = .ok v := by
  intro e
  induction e with
  | Label s => intro v h loc; exact h
  | LocalLabel s => intro v h loc; simp [Expression.solve, lookupA] at h
  | Num n => intro v h loc; exact h
  | Add l r ihl ihr =>
    intro v h loc
    simp only [Expression.solve] at h ⊢
    obtain ⟨a, ha, h⟩ := Res.bind_eq_ok h
    obtain ⟨b, hb, h⟩ := Res.bind_eq_ok h
    rw [ihl ha loc, ihr hb loc]
    simpa using h
  | Sub l r ihl ihr =>
    intro v h loc
    simp only [Expression.solve] at h ⊢
    obtain ⟨a, ha, h⟩ := Res.bind_eq_ok h
    obtain ⟨b, hb, h⟩ := Res.bind_eq_ok h
    rw [ihl ha loc, ihr hb loc]
    simpa using h
  | Mul l r ihl ihr =>
    intro v h loc
    simp only [Expression.solve] at h ⊢
    obtain ⟨a, ha, h⟩ := Res.bind_eq_ok h
    obtain ⟨b, hb, h⟩ := Res.bind_eq_ok h
    rw [ihl ha loc, ihr hb loc]
    simpa using h
  | Div l r ihl ihr =>
    intro v h loc
    simp only [Expression.solve] at h ⊢
    obtain ⟨a, ha, h⟩ := Res.bind_eq_ok h
    obtain ⟨b, hb, h⟩ := Res.bind_eq_ok h
    rw [ihl ha loc, ihr hb loc]
    simpa using h
  | Shr l r ihl ihr =>
    intro v h loc
    simp only [Expression.solve] at h ⊢
    obtain ⟨a, ha, h⟩ := Res.bind_eq_ok h
    obtain ⟨b, hb, h⟩ := Res.bind_eq_ok h
    rw [ihl ha loc, ihr hb loc]
    simpa using h
  | Shl l r ihl ihr =>
    intro v h loc
    simp only [Expression.solve] at h ⊢
    obtain ⟨a, ha, h⟩ := Res.bind_eq_ok h
    obtain ⟨b, hb, h⟩ := Res.bind_eq_ok h
    rw [ihl ha loc, ihr hb loc]
    simpa using h
  | Mod l r ihl ihr =>
    intro v h loc
    simp only [Expression.solve] at h ⊢
    obtain ⟨a, ha, h⟩ := Res.bind_eq_ok h
    obtain ⟨b, hb, h⟩ := Res.bind_eq_ok h
    rw [ihl ha loc, ihr hb loc]
    simpa using h

theorem ParsedValue.solve_value_empty_any_scope {g : Globals} {pv : ParsedValue} {v : Value}
    (h : pv.solve g [] = .ok v) (loc : Scope) : pv.solve g loc = .ok v := by
  cases pv with
  | Reg r => exact h
  | AtReg r => exact h
  | Push => exact h
  | Peek => exact h
  | SP => exact h
  | PC => exact h
  | EX => exact h
  | AtRegPlus r e =>
    simp only [ParsedValue.solve] at h ⊢
    obtain ⟨n, hn, h⟩ := Res.bind_eq_ok h
    rw [Expression.solve_empty_any_scope hn loc]
    simpa using h
  | Pick e =>
    simp only [ParsedValue.solve] at h ⊢
    obtain ⟨n, hn, h⟩ := Res.bind_eq_ok h
    rw [Expression.solve_empty_any_scope hn loc]
    simpa using h
  | AtAddr e =>
    simp only [ParsedValue.solve] at h ⊢
    obtain ⟨n, hn, h⟩ := Res.bind_eq_ok h
    rw [Expression.solve_empty_any_scope hn loc]
    simpa using h
  | Litteral e =>
    simp only [ParsedValue.solve] at h ⊢
    obtain ⟨n, hn, h⟩ := Res.bind_eq_ok h
    rw [Expression.solve_empty_any_scope hn loc]
    simpa using h

theorem ParsedInstruction.solve_instr_empty_any_scope {g : Globals} {ins : ParsedInstruction}
    {sol : Instruction} (h : ins.solve g [] = .ok sol) (loc : Scope) :
    ins.solve g loc = .ok sol := by
  cases ins with
  | BasicOp op b a =>
    simp only [ParsedInstruction.solve] at h ⊢
    obtain ⟨vb, hb, h⟩ := Res.bind_eq_ok h
    obtain ⟨va, ha, h⟩ := Res.bind_eq_ok h
    rw [ParsedValue.solve_value_empty_any_scope hb loc, ParsedValue.solve_value_empty_any_scope ha loc]
    simpa using h
  | SpecialOp op a =>
    simp only [ParsedInstruction.solve] at h ⊢
    obtain ⟨va, ha, h⟩ := Res.bind_eq_ok h
    rw [ParsedValue.solve_value_empty_any_scope ha loc]
    simpa using h

/-! ### Toward C9: encoded widths are at most 3 and the buffer write
    preserves the buffer-covers-index invariant -/

theorem Value.extra_length_le (isA : Bool) (v : Value) : (v.extra isA).length ≤ 1 := by
  cases v with
  | Litteral n =>
    simp only [Value.extra]
    split <;> simp
  | Reg r => simp [Value.extra]
  | AtReg r => simp [Value.extra]
  | AtRegPlus r n => simp [Value.extra]
  | Push => simp [Value.extra]
  | Peek => simp [Value.extra]
  | Pick n => simp [Value.extra]
  | SP => simp [Value.extra]
  | PC => simp [Value.extra]
  | EX => simp [Value.extra]
  | AtAddr n => simp [Value.extra]

theorem Instruction.encode_length_le (ins : Instruction) : ins.encode.length ≤ 3 := by
  cases ins with
  | BasicOp op b a =>
    have ha := Value.extra_length_le true a
    have hb := Value.extra_length_le false b
    simp only [Instruction.encode, List.length_cons, List.length_append]
    omega
  | SpecialOp op a =>
    have ha := Value.extra_length_le true a
    simp only [Instruction.encode, List.length_cons]
    omega

theorem writeBack_length (bin : List Nat) (index : Nat) (ws : List Nat)
    (h1 : index ≤ bin.length) (h2 : ws.length ≤ 3) :
    (writeBack bin index ws).length = u16 (index + ws.length) := by
  simp only [writeBack, List.length_take, List.length_append, List.length_drop,
    List.length_cons, List.length_nil, u16]
  omega

/-! ### Toward C9: a pass ending with `changed = false` made no update -/

theorem stepItem_unchanged {st st₁ : PassState} {it : ParsedItem}
    (h : stepItem st it = .ok st₁) (hc : st₁.changed = false) :
    st.changed = false ∧ st₁.globals = st.globals ∧ st₁.locals = st.locals := by
  cases it with
  | Directive d =>
    simp only [stepItem, Res.ok.injEq] at h
    rw [← h] at hc
    exact ⟨hc, by rw [← h], by rw [← h]⟩
  | LabelDecl s =>
    cases hlk : lookupA st.globals s with
    | none => simp only [stepItem, hlk] at h; exact Res.noConfusion h
    | some ptr =>
      simp only [stepItem, hlk] at h
      split at h
      · simp only [Res.ok.injEq] at h
        rw [← h] at hc
        simp at hc
      · simp only [Res.ok.injEq] at h
        rw [← h] at hc
        exact ⟨hc, by rw [← h], by rw [← h]⟩
  | LocalLabelDecl s =>
    cases hlg : st.lastGlobal with
    | none => simp only [stepItem, hlg] at h; exact Res.noConfusion h
    | some g =>
      cases hlk : lookupA st.locals g with
      | none => simp only [stepItem, hlg, hlk] at h; exact Res.noConfusion h
      | some m =>
        cases hlk2 : lookupA m s with
        | none => simp only [stepItem, hlg, hlk, hlk2] at h; exact Res.noConfusion h
        | some ptr =>
          simp only [stepItem, hlg, hlk, hlk2] at h
          split at h
          · simp only [Res.ok.injEq] at h
            rw [← h] at hc
            simp at hc
          · simp only [Res.ok.injEq] at h
            rw [← h] at hc
            exact ⟨hc, by rw [← h], by rw [← h]⟩
  | ParsedInstruction ins =>
    obtain ⟨sc, hsc, h⟩ := Res.bind_eq_ok h
    obtain ⟨solved, hsolved, h⟩ := Res.bind_eq_ok h
    split at h
    · simp only [Res.ok.injEq] at h
      rw [← h] at hc
      exact ⟨hc, by rw [← h], by rw [← h]⟩
    · exact Res.noConfusion h
  | Comment s =>
    simp only [stepItem, Res.ok.injEq] at h
    rw [← h] at hc
    exact ⟨hc, by rw [← h], by rw [← h]⟩

theorem linkPassAux_unchanged {items : List ParsedItem} {st' : PassState} :
    ∀ {st : PassState}, linkPassAux items st = .ok st' → st'.changed = false →
    st.changed = false ∧ st'.globals = st.globals ∧ st'.locals = st.locals := by
  induction items with
  | nil =>
    intro st h hc
    simp only [linkPassAux, Res.ok.injEq] at h
    subst h
    exact ⟨hc, rfl, rfl⟩
  | cons it rest ih =>
    intro st h hc
    obtain ⟨st₁, hstep, hrest⟩ := Res.bind_eq_ok h
    obtain ⟨h1, hg, hl⟩ := ih hrest hc
    obtain ⟨h0, hg0, hl0⟩ := stepItem_unchanged hstep h1
    exact ⟨h0, hg.trans hg0, hl.trans hl0⟩

/-! ### Toward C9: the last-global cursor after a pass -/

/-- First-of-two options (`Option.orElse` written out for clean
rewriting). -/
def orElseO (x y : Option String) : Option String :=
  match x with
  | some g => some g
  | none => y

/-- The name of the last global-label declaration of a stream, if any. -/
def lastGlobalOf : List ParsedItem → Option String
  | [] => none
  | .LabelDecl s :: rest => orElseO (lastGlobalOf rest) (some s)
  | .Directive _ :: rest => lastGlobalOf rest
  | .LocalLabelDecl _ :: rest => lastGlobalOf rest
  | .ParsedInstruction _ :: rest => lastGlobalOf rest
  | .Comment _ :: rest => lastGlobalOf rest

/-- The cursor value after one item: a global-label declaration sets it,
everything else leaves it. -/
def itemLast (it : ParsedItem) (prev : Option String) : Option String :=
  match it with
  | .LabelDecl s => some s
  | _ => prev

theorem stepItem_last {st st₁ : PassState} {it : ParsedItem} (h : stepItem st it = .ok st₁) :
    st₁.lastGlobal = itemLast it st.lastGlobal := by
  cases it with
  | Directive d =>
    simp only [stepItem, Res.ok.injEq] at h
    subst h
    rfl
  | LabelDecl s =>
    cases hlk : lookupA st.globals s with
    | none => simp only [stepItem, hlk] at h; exact Res.noConfusion h
    | some ptr =>
      simp only [stepItem, hlk] at h
      split at h <;> (simp only [Res.ok.injEq] at h; subst h; rfl)
  | LocalLabelDecl s =>
    cases hlg : st.lastGlobal with
    | none => simp only [stepItem, hlg] at h; exact Res.noConfusion h
    | some g =>
      cases hlk : lookupA st.locals g with
      | none => simp only [stepItem, hlg, hlk] at h; exact Res.noConfusion h
      | some m =>
        cases hlk2 : lookupA m s with
        | none => simp only [stepItem, hlg, hlk, hlk2] at h; exact Res.noConfusion h
        | some ptr =>
          simp only [stepItem, hlg, hlk, hlk2] at h
          split at h <;> (simp only [Res.ok.injEq] at h; subst h; simp [itemLast, hlg])
  | ParsedInstruction ins =>
    obtain ⟨sc, hsc, h⟩ := Res.bind_eq_ok h
    obtain ⟨solved, hsolved, h⟩ := Res.bind_eq_ok h
    split at h
    · simp only [Res.ok.injEq] at h
      subst h
      rfl
    · exact Res.noConfusion h
  | Comment s =>
    simp only [stepItem, Res.ok.injEq] at h
    subst h
    rfl

theorem linkPassAux_last {items : List ParsedItem} {st' : PassState} :
    ∀ {st : PassState}, linkPassAux items st = .ok st' →
    st'.lastGlobal = orElseO (lastGlobalOf items) st.lastGlobal := by
  induction items with
  | nil =>
    intro st h
    simp only [linkPassAux, Res.ok.injEq] at h
    subst h
    rfl
  | cons it rest ih =>
    intro st h
    obtain ⟨st₁, hstep, hrest⟩ := Res.bind_eq_ok h
    have h2 := ih hrest
    have h1 := stepItem_last hstep
    cases it with
    | LabelDecl s =>
      rw [h2, h1]
      show orElseO (lastGlobalOf rest) (some s)
        = orElseO (orElseO (lastGlobalOf rest) (some s)) st.lastGlobal
      cases lastGlobalOf rest <;> rfl
    | Directive d => rw [h2, h1]; rfl
    | LocalLabelDecl s => rw [h2, h1]; rfl
    | ParsedInstruction i => rw [h2, h1]; rfl
    | Comment s => rw [h2, h1]; rfl

/-! ### Toward C9: key presence in the locals table is invariant -/

theorem stepItem_locals_isSome {st st₁ : PassState} {it : ParsedItem}
    (h : stepItem st it = .ok st₁) (k : String) :
    (lookupA st₁.locals k).isSome = (lookupA st.locals k).isSome := by
  cases it with
  | Directive d =>
    simp only [stepItem, Res.ok.injEq] at h
    rw [← h]
  | LabelDecl s =>
    cases hlk : lookupA st.globals s with
    | none => simp only [stepItem, hlk] at h; exact Res.noConfusion h
    | some ptr =>
      simp only [stepItem, hlk] at h
      split at h <;> (simp only [Res.ok.injEq] at h; rw [← h])
  | LocalLabelDecl s =>
    cases hlg : st.lastGlobal with
    | none => simp only [stepItem, hlg] at h; exact Res.noConfusion h
    | some g =>
      cases hlk : lookupA st.locals g with
      | none => simp only [stepItem, hlg, hlk] at h; exact Res.noConfusion h
      | some m =>
        cases hlk2 : lookupA m s with
        | none => simp only [stepItem, hlg, hlk, hlk2] at h; exact Res.noConfusion h
        | some ptr =>
          simp only [stepItem, hlg, hlk, hlk2] at h
          split at h <;> (simp only [Res.ok.injEq] at h; rw [← h])
          · exact lookupA_updateA_isSome st.locals g k _
  | ParsedInstruction ins =>
    obtain ⟨sc, hsc, h⟩ := Res.bind_eq_ok h
    obtain ⟨solved, hsolved, h⟩ := Res.bind_eq_ok h
    split at h
    · simp only [Res.ok.injEq] at h
      rw [← h]
    · exact Res.noConfusion h
  | Comment s =>
    simp only [stepItem, Res.ok.injEq] at h
    rw [← h]

theorem linkPassAux_locals_isSome {items : List ParsedItem} {st' : PassState} :
    ∀ {st : PassState}, linkPassAux items st = .ok st' → ∀ k : String,
    (lookupA st'.locals k).isSome = (lookupA st.locals k).isSome := by
  induction items with
  | nil =>
    intro st h k
    simp only [linkPassAux, Res.ok.injEq] at h
    subst h
    rfl
  | cons it rest ih =>
    intro st h k
    obtain ⟨st₁, hstep, hrest⟩ := Res.bind_eq_ok h
    exact (ih hrest k).trans (stepItem_locals_isSome hstep k)

/-! ### Toward C9: the pre-pass registers every declared global in the
locals table, and the registration survives -/

theorem stepExtract_locals_isSome_mono {st st₁ : ExtractState} {it : ParsedItem}
    (h : stepExtract st it = .ok st₁) (k : String)
    (hk : (lookupA st.locals k).isSome = true) : (lookupA st₁.locals k).isSome = true := by
  cases it with
  | LabelDecl s =>
    simp only [stepExtract] at h
    split at h
    · exact Res.noConfusion h
    · simp only [Res.ok.injEq] at h
      subst h
      show (lookupA (st.locals ++ [(s, [])]) k).isSome = true
      rw [lookupA_append]
      cases hx : lookupA st.locals k with
      | some v => simp
      | none => rw [hx] at hk; simp at hk
  | LocalLabelDecl s =>
    cases hp : st.prevLabel with
    | none => simp only [stepExtract, hp] at h; exact Res.noConfusion h
    | some p =>
      cases hm : lookupA st.locals p with
      | none => simp only [stepExtract, hp, hm] at h; exact Res.noConfusion h
      | some m =>
        simp only [stepExtract, hp, hm] at h
        split at h
        · exact Res.noConfusion h
        · simp only [Res.ok.injEq] at h
          subst h
          show (lookupA (updateA st.locals p (m ++ [(s, 0)])) k).isSome = true
          rw [lookupA_updateA_isSome]
          exact hk
  | Directive d => simp only [stepExtract, Res.ok.injEq] at h; subst h; exact hk
  | ParsedInstruction i => simp only [stepExtract, Res.ok.injEq] at h; subst h; exact hk
  | Comment s => simp only [stepExtract, Res.ok.injEq] at h; subst h; exact hk

theorem stepExtract_label_adds {st st₁ : ExtractState} {s : String}
    (h : stepExtract st (.LabelDecl s) = .ok st₁) :
    (lookupA st₁.locals s).isSome = true := by
  simp only [stepExtract] at h
  split at h
  · exact Res.noConfusion h
  · simp only [Res.ok.injEq] at h
    subst h
    show (lookupA (st.locals ++ [(s, [])]) s).isSome = true
    rw [lookupA_append]
    cases hx : lookupA st.locals s with
    | some v => simp
    | none => simp [lookupA]

theorem extractAux_locals_isSome_mono {items : List ParsedItem} {st' : ExtractState} :
    ∀ {st : ExtractState}, extractAux items st = .ok st' → ∀ k : String,
    (lookupA st.locals k).isSome = true → (lookupA st'.locals k).isSome = true := by
  induction items with
  | nil =>
    intro st h k hk
    simp only [extractAux, Res.ok.injEq] at h
    subst h
    exact hk
  | cons it rest ih =>
    intro st h k hk
    obtain ⟨st₁, hstep, hrest⟩ := Res.bind_eq_ok h
    exact ih hrest k (stepExtract_locals_isSome_mono hstep k hk)

theorem extractAux_lastGlobal_isSome {items : List ParsedItem} {st' : ExtractState} :
    ∀ {st : ExtractState} {gname : String}, extractAux items st = .ok st' →
    lastGlobalOf items = some gname → (lookupA st'.locals gname).isSome = true := by
  induction items with
  | nil =>
    intro st gname h hg
    simp [lastGlobalOf] at hg
  | cons it rest ih =>
    intro st gname h hg
    obtain ⟨st₁, hstep, hrest⟩ := Res.bind_eq_ok h
    cases it with
    | LabelDecl s =>
      cases hrst : lastGlobalOf rest with
      | some g2 =>
        have hg2 : g2 = gname := by
          simp only [lastGlobalOf, hrst, orElseO] at hg
          exact Option.some.inj hg
        exact ih hrest (hg2 ▸ hrst)
      | none =>
        have hs : s = gname := by
          simp only [lastGlobalOf, hrst, orElseO] at hg
          exact Option.some.inj hg
        subst hs
        exact extractAux_locals_isSome_mono hrest s (stepExtract_label_adds hstep)
    | Directive d => exact ih hrest hg
    | LocalLabelDecl s => exact ih hrest hg
    | ParsedInstruction i => exact ih hrest hg
    | Comment s => exact ih hrest hg

/-! ### Toward C9: re-running a no-change pass from the loop's exit state
is again a no-change pass (a simulation between the two runs) -/

/-- The simulation relation between the state `s` entering the pass that
exited the loop and the state `t` entering one further pass: same symbol
tables and emission index, a clean `changed` flag, a buffer that covers
the index, and a cursor that either agrees or (when the first run starts
with an empty cursor) points at a scope present in the locals table. -/
def PassSim (s t : PassState) : Prop :=
  t.globals = s.globals ∧ t.locals = s.locals ∧ t.index = s.index ∧ t.changed = false ∧
  t.index ≤ t.bin.length ∧
  (t.lastGlobal = s.lastGlobal ∨
    (s.lastGlobal = none ∧
      ∀ gname, t.lastGlobal = some gname → (lookupA t.locals gname).isSome = true))

theorem stepItem_sim {s t s₁ : PassState} {it : ParsedItem}
    (h : stepItem s it = .ok s₁) (h1 : s₁.changed = false) (hsim : PassSim s t) :
    ∃ t₁, stepItem t it = .ok t₁ ∧ PassSim s₁ t₁ := by
  obtain ⟨hg, hl, hi, hc, hlen, hlast⟩ := hsim
  cases it with
  | Directive d =>
    simp only [stepItem, Directive.append_to_eq, Res.ok.injEq] at h
    subst h
    refine ⟨{ t with bin := t.bin ++ d.dwords, index := u16 (t.index + d.dcount) }, ?_, ?_⟩
    · simp only [stepItem, Directive.append_to_eq]
    · refine ⟨hg, hl, by rw [hi], hc, ?_, ?_⟩
      · have hd := Directive.dcount_le d
        have hu := u16_le (t.index + d.dcount)
        simp only [List.length_append]
        omega
      · cases hlast with
        | inl he => exact Or.inl he
        | inr hr => exact Or.inr ⟨hr.1, fun gname hgn => hr.2 gname hgn⟩
  | LabelDecl name =>
    cases hlk : lookupA s.globals name with
    | none => simp only [stepItem, hlk] at h; exact Res.noConfusion h
    | some ptr =>
      simp only [stepItem, hlk] at h
      split at h
      case isTrue hptr =>
        simp only [Res.ok.injEq] at h
        subst h
        simp at h1
      case isFalse hptr =>
        have hptr' : ptr = s.index := by omega
        simp only [Res.ok.injEq] at h
        subst h
        refine ⟨{ t with lastGlobal := some name }, ?_, ?_⟩
        · have hlkt : lookupA t.globals name = some ptr := by rw [hg]; exact hlk
          simp only [stepItem, hlkt]
          rw [if_neg (by omega)]
        · exact ⟨hg, hl, hi, hc, hlen, Or.inl rfl⟩
  | LocalLabelDecl name =>
    cases hlg : s.lastGlobal with
    | none => simp only [stepItem, hlg] at h; exact Res.noConfusion h
    | some g =>
      cases hlk : lookupA s.locals g with
      | none => simp only [stepItem, hlg, hlk] at h; exact Res.noConfusion h
      | some m =>
        cases hlk2 : lookupA m name with
        | none => simp only [stepItem, hlg, hlk, hlk2] at h; exact Res.noConfusion h
        | some ptr =>
          simp only [stepItem, hlg, hlk, hlk2] at h
          split at h
          case isTrue hptr =>
            simp only [Res.ok.injEq] at h
            subst h
            simp at h1
          case isFalse hptr =>
            have hptr' : ptr = s.index := by omega
            simp only [Res.ok.injEq] at h
            have hlgt : t.lastGlobal = some g := by
              cases hlast with
              | inl he => rw [he, hlg]
              | inr hr => rw [hr.1] at hlg; exact Option.noConfusion hlg
            refine ⟨t, ?_, ?_⟩
            · have hlkt : lookupA t.locals g = some m := by rw [hl]; exact hlk
              simp only [stepItem, hlgt, hlkt, hlk2]
              rw [if_neg (by omega)]
            · rw [← h]
              exact ⟨hg, hl, hi, hc, hlen, hlast⟩
  | ParsedInstruction ins =>
    obtain ⟨sc, hsc, h⟩ := Res.bind_eq_ok h
    obtain ⟨solved, hsolved, h⟩ := Res.bind_eq_ok h
    split at h
    case isFalse hguard => exact Res.noConfusion h
    case isTrue hguard =>
      simp only [Res.ok.injEq] at h
      subst h
      have hscope2 : ∃ sc₂, scopeOf t.lastGlobal t.locals = .ok sc₂ ∧
          ins.solve t.globals sc₂ = .ok solved := by
        cases hlast with
        | inl he =>
          refine ⟨sc, ?_, ?_⟩
          · rw [he, hl]; exact hsc
          · rw [hg]; exact hsolved
        | inr hr =>
          obtain ⟨hn, hk⟩ := hr
          rw [hn] at hsc
          have hsc' : sc = [] := by
            simpa [scopeOf] using hsc.symm
          subst hsc'
          cases hlg : t.lastGlobal with
          | none => exact ⟨[], by simp [scopeOf], by rw [hg]; exact hsolved⟩
          | some gname =>
            have hks := hk gname hlg
            cases hsc2 : lookupA t.locals gname with
            | none => rw [hsc2] at hks; simp at hks
            | some sc₂ =>
              refine ⟨sc₂, by simp [scopeOf, hlg, hsc2], ?_⟩
              rw [hg]
              exact ParsedInstruction.solve_instr_empty_any_scope hsolved sc₂
      obtain ⟨sc₂, hsc₂, hsolved₂⟩ := hscope2
      refine ⟨{ t with bin := writeBack t.bin t.index solved.encode, index := u16 (t.index + solved.encode.length) }, ?_, ?_⟩
      · simp only [stepItem, hsc₂, Res.ok_bind, hsolved₂, if_pos hlen]
      · refine ⟨hg, hl, by rw [hi], hc, ?_, ?_⟩
        · rw [writeBack_length t.bin t.index solved.encode hlen
            (Instruction.encode_length_le solved)]
        · cases hlast with
          | inl he => exact Or.inl he
          | inr hr => exact Or.inr ⟨hr.1, fun gname hgn => hr.2 gname hgn⟩
  | Comment c =>
    simp only [stepItem, Res.ok.injEq] at h
    subst h
    exact ⟨t, rfl, ⟨hg, hl, hi, hc, hlen, hlast⟩⟩

theorem linkPassAux_sim {items : List ParsedItem} {s' : PassState} :
    ∀ {s t : PassState}, linkPassAux items s = .ok s' → s'.changed = false → PassSim s t →
    ∃ t', linkPassAux items t = .ok t' ∧ PassSim s' t' := by
  induction items with
  | nil =>
    intro s t h hnc hsim
    simp only [linkPassAux, Res.ok.injEq] at h
    subst h
    exact ⟨t, rfl, hsim⟩
  | cons it rest ih =>
    intro s t h hnc hsim
    obtain ⟨s₁, hstep, hrest⟩ := Res.bind_eq_ok h
    have h1 : s₁.changed = false := (linkPassAux_unchanged hrest hnc).1
    obtain ⟨t₁, hstept, hsim₁⟩ := stepItem_sim hstep h1 hsim
    obtain ⟨t', hrestt, hsim'⟩ := ih hrest hnc hsim₁
    exact ⟨t', by simp [linkPassAux, hstept, Res.ok_bind, hrestt], hsim'⟩

/-! ### Toward C9: peeling the last pass off a terminating loop -/

theorem linkLoop_last_pass {ast : List ParsedItem} :
    ∀ {fuel : Nat} {st st' : PassState}, linkLoop fuel ast st = .ok st' →
    st.changed = true →
    st'.changed = false ∧
    (∀ k, (lookupA st.locals k).isSome = true → (lookupA st'.locals k).isSome = true) ∧
    ∃ s₀, linkPass ast s₀ = .ok st' ∧ (s₀ = st ∨ ∃ s₁, linkPass ast s₁ = .ok s₀) := by
  intro fuel
  induction fuel with
  | zero =>
    intro st st' h hch
    simp only [linkLoop] at h
    exact Res.noConfusion h
  | succ n ih =>
    intro st st' h hch
    simp only [linkLoop, hch, if_true] at h
    obtain ⟨st₁, hpass, hloop⟩ := Res.bind_eq_ok h
    have hpass' : linkPassAux ast { st with index := 0, changed := false } = .ok st₁ := hpass
    cases hch1 : st₁.changed with
    | true =>
      obtain ⟨hnc, hmono, s₀, hp, horig⟩ := ih hloop hch1
      refine ⟨hnc, ?_, s₀, hp, ?_⟩
      · intro k hk
        apply hmono
        rw [linkPassAux_locals_isSome hpass' k]
        exact hk
      · cases horig with
        | inl he => exact Or.inr ⟨st, he ▸ hpass⟩
        | inr hex => exact Or.inr hex
    | false =>
      cases n with
      | zero =>
        simp only [linkLoop] at hloop
        exact Res.noConfusion hloop
      | succ m =>
        simp only [linkLoop, hch1] at hloop
        simp only [Bool.false_eq_true, if_false, Res.ok.injEq] at hloop
        subst hloop
        refine ⟨hch1, ?_, st, hpass, Or.inl rfl⟩
        intro k hk
        rw [linkPassAux_locals_isSome hpass' k]
        exact hk

/-- The symbol tables and `changed` flag a pass result carries, `none`
when the pass did not return normally. -/
def Res.tablesOf : Res PassState → Option (Globals × Locals × Bool)
  | .ok st => some (st.globals, st.locals, st.changed)
  | .err _ => none
  | .panic => none
  | .diverge => none

/-- C9: when `link`'s fixed-point loop terminates successfully (any fuel
reaching `.ok` after the `extract_labels` pre-pass), the symbol table is
at a fixed point: one further emission pass over the same item stream
succeeds and leaves every global and local label address unchanged (and
reports `changed = false`). -/
theorem c9_fixed_point (fuel : Nat) (ast : List ParsedItem) (g : Globals) (l : Locals)
    (st' : PassState)
    (hx : extract_labels ast = .ok (g, l))
    (hrun : linkLoop fuel ast (initState g l) = .ok st') :
    (linkPass ast st').tablesOf = some (st'.globals, st'.locals, false) := by
  obtain ⟨hnc, hmono, s₀, hpass, horig⟩ := linkLoop_last_pass hrun rfl
  have hpass' : linkPassAux ast { s₀ with index := 0, changed := false } = .ok st' := hpass
  obtain ⟨_, hgs, hls⟩ := linkPassAux_unchanged hpass' hnc
  have hlast' := linkPassAux_last hpass'
  have hsim : PassSim { s₀ with index := 0, changed := false }
      { st' with index := 0, changed := false } := by
    refine ⟨hgs, hls, rfl, rfl, by simp, ?_⟩
    cases hLG : lastGlobalOf ast with
    | none =>
      left
      show st'.lastGlobal = s₀.lastGlobal
      rw [hlast', hLG]
      rfl
    | some gname =>
      cases horig with
      | inl he =>
        right
        constructor
        · rw [he]; rfl
        · intro gn hgn
          have hst : st'.lastGlobal = some gname := by
            rw [hlast', hLG]; rfl
          have hgn' : gn = gname := by
            have : some gn = some gname := by rw [← hgn, ← hst]
            exact Option.some.inj this
          subst hgn'
          obtain ⟨stE, hE, hEok⟩ := Res.bind_eq_ok hx
          have hEl : stE.locals = l := by
            simp only [Res.ok.injEq, Prod.mk.injEq] at hEok
            exact hEok.2
          have hinit := extractAux_lastGlobal_isSome hE hLG
          rw [hEl] at hinit
          exact hmono gn hinit
      | inr hex =>
        obtain ⟨s₁, hp1⟩ := hex
        left
        have hp1' : linkPassAux ast { s₁ with index := 0, changed := false } = .ok s₀ := hp1
        have hlast1 := linkPassAux_last hp1'
        show st'.lastGlobal = s₀.lastGlobal
        rw [hlast', hlast1, hLG]
        rfl
  obtain ⟨t', hrunt, hsim'⟩ := linkPassAux_sim hpass' hnc hsim
  have hfin : linkPass ast st' = .ok t' := hrunt
  rw [hfin]
  obtain ⟨hg', hl', _, hch', _, _⟩ := hsim'
  simp only [Res.tablesOf, hg', hl', hch']

/-- The C9 witness input: a single global label, linked to a fixed point
in one pass. -/
def c9ast : List ParsedItem := [.LabelDecl "q"]

/-- C9 witnessed at `c9ast`: the loop exits in state
`⟨[], 0, [("q", 0)], [("q", [])], some "q", false⟩` and one further pass
keeps both tables. -/
theorem c9_fixed_point_witness :
    (linkPass c9ast ⟨[], 0, [("q", 0)], [("q", [])], some "q", false⟩).tablesOf
      = some ([("q", 0)], [("q", [])], false) := by
  exact c9_fixed_point 2 c9ast [("q", 0)] [("q", [])]
    ⟨[], 0, [("q", 0)], [("q", [])], some "q", false⟩ (by decide) (by decide)

end Dcpu
